import Mathlib

set_option maxRecDepth 8000

/-!
Shallow embedding of the pkasolver core (src/pkasolver/chem.py, query.py,
data.py, constants.py) and verification of the specification claims.

Molecules are modelled as lists of atoms (RDKit per-atom state that the core
reads or writes: atomic number, formal charge, explicit and implicit hydrogen
counts) together with a list of bonds.  RDKit's `GetTotalNumHs()` is the sum
of the explicit and implicit hydrogen counts.  The `__sssAtoms` drawing
attribute that `get_possible_reactions` stores on its input molecule object is
kept outside the chemical state, in `MolObject`.  The external regressor
(`pkasolver.ml.predict`, an external collaborator that is not part of the core
sources) is abstracted as a per-pair scoring function `ℚ → ...`, and pKa
values are rationals.
-/

structure Atom where
  element : Nat
  charge : Int
  explicitHs : Nat
  implicitHs : Nat
deriving DecidableEq, Repr, Inhabited

/-- RDKit `GetTotalNumHs()`: explicit plus implicit hydrogens. -/
def Atom.totHs (a : Atom) : Nat := a.explicitHs + a.implicitHs

structure Bond where
  beginIdx : Nat
  endIdx : Nat
  bondTypeAsDouble : ℚ
  isConjugated : Bool
  rotatable : Bool
deriving DecidableEq, Repr, Inhabited

structure Molecule where
  atoms : List Atom
  bonds : List Bond
deriving DecidableEq, Repr, Inhabited

/-- RDKit `GetAtomWithIdx` (callers only use indices that are in range; out of range
we return the default atom, which satisfies no protonation or deprotonation
condition below). -/
def getAtom (mol : Molecule) (i : Nat) : Atom := mol.atoms.getD i default

def setAtom (mol : Molecule) (i : Nat) (a : Atom) : Molecule :=
  { mol with atoms := mol.atoms.set i a }

/-- The molecule object as `get_possible_reactions` sees it: chemical state
plus the `__sssAtoms` highlight attribute that the function writes onto its
input (`mol.__sssAtoms = [match]`, query.py line 179). -/
structure MolObject where
  chem : Molecule
  sssAtoms : Option (List Nat)
deriving DecidableEq, Repr, Inhabited

/-- The protonation performed in the acid branch of `get_possible_reactions`
(query.py lines 190-192): `SetFormalCharge(charge + 1)` and, if
`Tot_Hs == 0 or Ex_Hs > 0`, `SetNumExplicitHs(Ex_Hs + 1)`. -/
def protonateAtom (a : Atom) : Atom :=
  let a1 : Atom := { a with charge := a.charge + 1 }
  if a.totHs = 0 ∨ 0 < a.explicitHs then { a1 with explicitHs := a.explicitHs + 1 }
  else a1

/-- The deprotonation performed in the base branch of `get_possible_reactions`
(query.py lines 212-214): `SetFormalCharge(charge - 1)` and, if `Ex_Hs > 0`,
`SetNumExplicitHs(Ex_Hs - 1)`. -/
def deprotonateAtom (a : Atom) : Atom :=
  let a1 : Atom := { a with charge := a.charge - 1 }
  if 0 < a.explicitHs then { a1 with explicitHs := a.explicitHs - 1 }
  else a1

def protonateMol (mol : Molecule) (i : Nat) : Molecule :=
  setAtom mol i (protonateAtom (getAtom mol i))

def deprotonateMol (mol : Molecule) (i : Nat) : Molecule :=
  setAtom mol i (deprotonateAtom (getAtom mol i))

/-- Acid-direction qualification of a site, query.py line 187:
`(element == 7 and charge <= 0) or charge < 0`. -/
def acidCondB (a : Atom) : Bool :=
  (a.element == 7 && decide (a.charge ≤ 0)) || decide (a.charge < 0)

/-- Base-direction qualification of a site, query.py lines 206-210:
`Tot_Hs > 0 and charge >= 0 and not (element == 7 and charge == 0 and Tot_Hs == 1)`. -/
def baseCondB (a : Atom) : Bool :=
  decide (0 < a.totHs) && decide (0 ≤ a.charge) &&
    !(a.element == 7 && decide (a.charge = 0) && a.totHs == 1)

/-- A conjugate pair as produced by `get_possible_reactions`:
(protonated molecule, deprotonated molecule, reaction-center atom index). -/
abbrev RPair := Molecule × Molecule × Nat

/-- Embeds `get_possible_reactions` (query.py lines 159-218).  For each match it sets
the `__sssAtoms` attribute on the input object, then on a deep copy either
protonates (when `acidCondB` holds; the copy becomes the first member of an
acid pair) or deprotonates (when `baseCondB` holds; the copy becomes the
second member of a base pair).  Returns the acid pairs, the base pairs and the
final state of the input object.  `UpdatePropertyCache` only refreshes cached
derived properties and is the identity here. -/
def getPossibleReactions (mo : MolObject) (sites : List Nat) :
    List RPair × List RPair × MolObject :=
  match sites with
  | [] => ([], [], mo)
  | m :: rest =>
    let mo1 : MolObject := { mo with sssAtoms := some [m] }
    let a := getAtom mo1.chem m
    let acidHere : List RPair :=
      if acidCondB a then [(protonateMol mo1.chem m, mo1.chem, m)] else []
    let baseHere : List RPair :=
      if baseCondB a then [(mo1.chem, deprotonateMol mo1.chem m, m)] else []
    let r := getPossibleReactions mo1 rest
    (acidHere ++ r.1, baseHere ++ r.2.1, r.2.2)

/-- Round-half-to-even to an integer, the rounding mode of `np.round`
(`Rat.floor` is the integer floor). -/
def roundHalfEven (x : ℚ) : Int :=
  let f : Int := x.floor
  let r : ℚ := x - f
  if r < 1/2 then f
  else if 1/2 < r then f + 1
  else if f % 2 = 0 then f else f + 1

/-- Rounding `np.round(-, 3)`: round to three decimal places. -/
def round3 (x : ℚ) : ℚ := (roundHalfEven (x * 1000) : ℚ) / 1000

/-- Embeds `match_pka` (query.py lines 221-247): encodes every pair, scores the whole
batch with the external regressor and rounds each prediction to three decimal
places (`np.round(predict(model, loader), 3)`).  The regressor together with
the pair encoding it consumes is the external black box `r`. -/
def matchPka (r : RPair → ℚ) (pairs : List RPair) : List ℚ :=
  pairs.map (fun p => round3 (r p))

/-- Python's `max` on a nonempty list (0 on the empty list, where the source
never calls it). -/
def listMax : List ℚ → ℚ
  | [] => 0
  | x :: xs => xs.foldl max x

/-- Python's `min` on a nonempty list. -/
def listMin : List ℚ → ℚ
  | [] => 0
  | x :: xs => xs.foldl min x

/-- Python's `list.index`: index of the first occurrence. -/
def firstIdxOf (l : List ℚ) (a : ℚ) : Nat := l.findIdx (fun x => decide (x = a))

/-- The accumulated micro-speciation sequence: the molecule list, the pKa list
and the reaction-center list of `mol_query`. -/
structure SeqState where
  mols : List Molecule
  pkas : List ℚ
  atoms : List Nat
deriving DecidableEq, Repr, Inhabited

/-- Embeds `acid_sequence` (query.py lines 250-289): if there are acid pairs, score
them, take the maximum pKa; if it is below 0.5 leave the state unchanged,
otherwise prepend the pKa, the protonated molecule of the first pair attaining
the maximum, and its atom index. -/
def acidSequence (r : RPair → ℚ) (acidPairs : List RPair) (s : SeqState) : SeqState :=
  if acidPairs.isEmpty then s
  else if listMax (matchPka r acidPairs) < 1/2 then s
  else
    ⟨(acidPairs.getD (firstIdxOf (matchPka r acidPairs)
        (listMax (matchPka r acidPairs))) default).1 :: s.mols,
     listMax (matchPka r acidPairs) :: s.pkas,
     (acidPairs.getD (firstIdxOf (matchPka r acidPairs)
        (listMax (matchPka r acidPairs))) default).2.2 :: s.atoms⟩

/-- Embeds `base_sequence` (query.py lines 292-330): if there are base pairs, score
them, take the minimum pKa; if it is above 13.5 leave the state unchanged,
otherwise append the pKa, the deprotonated molecule of the first pair
attaining the minimum, and its atom index. -/
def baseSequence (r : RPair → ℚ) (basePairs : List RPair) (s : SeqState) : SeqState :=
  if basePairs.isEmpty then s
  else if 27/2 < listMin (matchPka r basePairs) then s
  else
    ⟨s.mols ++ [(basePairs.getD (firstIdxOf (matchPka r basePairs)
        (listMin (matchPka r basePairs))) default).2.1],
     s.pkas ++ [listMin (matchPka r basePairs)],
     s.atoms ++ [(basePairs.getD (firstIdxOf (matchPka r basePairs)
        (listMin (matchPka r basePairs))) default).2.2]⟩

/-- One iteration of the acid phase of `mol_query` (query.py lines 361-366):
`get_possible_reactions(mols[0], sites)` followed by `acid_sequence`. -/
def acidStep (r : RPair → ℚ) (sites : List Nat) (s : SeqState) : SeqState :=
  acidSequence r (getPossibleReactions ⟨s.mols.headI, none⟩ sites).1 s

/-- One iteration of the base phase of `mol_query` (query.py lines 367-372):
`get_possible_reactions(mols[-1], sites)` followed by `base_sequence`. -/
def baseStep (r : RPair → ℚ) (sites : List Nat) (s : SeqState) : SeqState :=
  baseSequence r (getPossibleReactions ⟨s.mols.getLastD default, none⟩ sites).2.1 s

/-- The acid-phase `while True` loop of `mol_query`, fuelled: run one step and
stop as soon as the iteration did not increase the pKa-list length
(`if inital_length >= len(pkas): break`). -/
def acidLoop (r : RPair → ℚ) (sites : List Nat) : Nat → SeqState → SeqState
  | 0, s => s
  | fuel + 1, s =>
    let t := acidStep r sites s
    if t.pkas.length ≤ s.pkas.length then t else acidLoop r sites fuel t

/-- The base-phase `while True` loop of `mol_query`, fuelled. -/
def baseLoop (r : RPair → ℚ) (sites : List Nat) : Nat → SeqState → SeqState
  | 0, s => s
  | fuel + 1, s =>
    let t := baseStep r sites s
    if t.pkas.length ≤ s.pkas.length then t else baseLoop r sites fuel t

structure QueryResult where
  molPairs : List (Molecule × Molecule)
  pkas : List ℚ
  atoms : List Nat
deriving DecidableEq, Repr

/-- The search part of `mol_query` (query.py lines 355-379).  The initial
canonicalization and the computation of `sites` call
`pkasolver.dimorphite_dl`, an external collaborator, so the canonical molecule
and the candidate sites are parameters here.  The two `while True` loops are
fuelled; the termination theorems show that past an explicit potential bound
the fuel no longer matters. -/
def molQuery (r : RPair → ℚ) (sites : List Nat) (fuelA fuelB : Nat)
    (mol : Molecule) : QueryResult :=
  let s0 : SeqState := ⟨[mol], [], []⟩
  let s1 := acidLoop r sites fuelA s0
  let s2 := baseLoop r sites fuelB s1
  ⟨s2.mols.zip s2.mols.tail, s2.pkas, s2.atoms⟩

/-- How many more acid-direction (proton-adding) steps the site can absorb:
a site qualifies in `acidCondB` exactly while this deficit is positive
(nitrogen may be protonated up to charge +1, anything else up to charge 0). -/
def acidDeficit (a : Atom) : Nat :=
  if a.element = 7 then (1 - a.charge).toNat else (-a.charge).toNat

/-- How many more base-direction (proton-removing) steps the site's charge can
absorb: `baseCondB` requires a non-negative charge. -/
def baseCredit (a : Atom) : Nat := (a.charge + 1).toNat

def acidPotential (sites : List Nat) (mol : Molecule) : Nat :=
  (sites.map (fun m => acidDeficit (getAtom mol m))).sum

def basePotential (sites : List Nat) (mol : Molecule) : Nat :=
  (sites.map (fun m => baseCredit (getAtom mol m))).sum

/-- Embeds `get_ionization_indices` (query.py lines 118-156): assert that all
molecules have the same atom count (`len(set(...)) == 1`), then return the
indices whose formal-charge column holds more than one distinct value. -/
def getIonizationIndices (mol_lst : List Molecule) :
    Except String (List Nat) :=
  if (mol_lst.map (fun mol => mol.atoms.length)).dedup.length = 1 then
    Except.ok ((List.range mol_lst.headI.atoms.length).filter (fun i =>
      1 < ((mol_lst.map (fun mol => (getAtom mol i).charge)).dedup.length)))
  else
    Except.error "Molecules must only differ in their protonation state"

/-- The value a feature function of constants.py returns for one atom or bond:
either a one-hot vector (a Python list) or a single boolean. -/
inductive FeatVal where
  | vec (l : List ℚ)
  | scalar (b : Bool)
deriving DecidableEq, Repr

/-- The list `node_feature_values["element"]` (constants.py line 18). -/
def elementValues : List Nat := [1, 6, 7, 8, 9, 15, 16, 17, 33, 35, 53]

/-- The list `node_feature_values["formal_charge"]` (constants.py line 31). -/
def formalChargeValues : List Int := [-1, 0, 1]

/-- The list `edge_feature_values["bond_type"]` (constants.py line 88). -/
def bondTypeValues : List ℚ := [1, 3/2, 2, 3]

/-- A named node feature of `NODE_FEATURES`: its function of
(atom, atom index, reaction-center index) and its cardinality, the number of
columns the spec assigns it (the length of its value list, or 1 for a boolean
feature). -/
structure NodeFeature where
  fn : Atom → Nat → Nat → FeatVal
  card : Nat

/-- Feature `NODE_FEATURES["element"]`: one-hot over `elementValues`. -/
def elementFeature : NodeFeature :=
  ⟨fun a _ _ => .vec (elementValues.map (fun s => if a.element = s then 1 else 0)),
   elementValues.length⟩

/-- Feature `NODE_FEATURES["formal_charge"]`: one-hot over `formalChargeValues`. -/
def formalChargeFeature : NodeFeature :=
  ⟨fun a _ _ => .vec (formalChargeValues.map (fun s => if a.charge = s then 1 else 0)),
   formalChargeValues.length⟩

/-- Feature `NODE_FEATURES["reaction_center"]`: the boolean `i == int(marvin_atom)`. -/
def reactionCenterFeature : NodeFeature :=
  ⟨fun _ i marvin => .scalar (i == marvin), 1⟩

/-- A named edge feature of `EDGE_FEATURES`. -/
structure EdgeFeature where
  fn : Bond → FeatVal
  card : Nat

/-- Feature `EDGE_FEATURES["bond_type"]`: one-hot over `bondTypeValues`. -/
def bondTypeFeature : EdgeFeature :=
  ⟨fun b => .vec (bondTypeValues.map (fun s => if b.bondTypeAsDouble = s then 1 else 0)),
   bondTypeValues.length⟩

/-- Feature `EDGE_FEATURES["is_conjugated"]`: the boolean `bond.GetIsConjugated()`. -/
def isConjugatedFeature : EdgeFeature := ⟨fun b => .scalar b.isConjugated, 1⟩

/-- The sum of the cardinalities of a feature selection, the node-feature
width the spec asserts. -/
def sumNodeCard (nfs : List NodeFeature) : Nat := (nfs.map (fun f => f.card)).sum

def sumEdgeCard (efs : List EdgeFeature) : Nat := (efs.map (fun f => f.card)).sum

/-- Embeds `make_nodes` (data.py lines 169-182): one row per atom in index order;
each row is built by APPENDING each feature's output as one entry
(`node.append(feat(atom, i, marvin_atom))`), so a row is a list of feature
outputs, not their flat concatenation. -/
def makeNodes (mol : Molecule) (marvin_atom : Nat) (nfs : List NodeFeature) :
    List (List FeatVal) :=
  mol.atoms.enum.map (fun p => nfs.map (fun f => f.fn p.2 p.1 marvin_atom))

/-- Embeds `make_edges_and_attr` (data.py lines 185-203): for every bond, the
forward directed edge immediately followed by the reversed one; the feature
row of the bond (again a list of per-feature outputs) is duplicated for both
directions. -/
def makeEdgesAndAttr (mol : Molecule) (efs : List EdgeFeature) :
    List (Nat × Nat) × List (List FeatVal) :=
  (mol.bonds.flatMap (fun b => [(b.beginIdx, b.endIdx), (b.endIdx, b.beginIdx)]),
   mol.bonds.flatMap (fun b => let row := efs.map (fun f => f.fn b); [row, row]))

/-- The `protonation_state` string argument of `mol_to_features`. -/
inductive ProtState where
  | protonated
  | deprotonated
deriving DecidableEq, Repr

/-- The DataFrame row consumed by `mol_to_features` and
`mol_to_paired_mol_data`: a protonated molecule, a deprotonated molecule and
the shared reaction-center index `marvin_atom`. -/
structure DataRow where
  protonated : Molecule
  deprotonated : Molecule
  marvin_atom : Nat
deriving DecidableEq, Repr

def sumCharges (mol : Molecule) : Int := (mol.atoms.map (fun a => a.charge)).sum

/-- Embeds `mol_to_features` (data.py lines 213-225): encode the selected member and
return nodes, edge index, edge attributes and the net formal charge
(`np.sum` of all atoms' formal charges). -/
def molToFeatures (row : DataRow) (nfs : List NodeFeature) (efs : List EdgeFeature)
    (st : ProtState) :
    List (List FeatVal) × List (Nat × Nat) × List (List FeatVal) × Int :=
  match st with
  | .protonated =>
    let e := makeEdgesAndAttr row.protonated efs
    (makeNodes row.protonated row.marvin_atom nfs, e.1, e.2, sumCharges row.protonated)
  | .deprotonated =>
    let e := makeEdgesAndAttr row.deprotonated efs
    (makeNodes row.deprotonated row.marvin_atom nfs, e.1, e.2, sumCharges row.deprotonated)

/-- The `PairData` object of data.py lines 129-166: the two encoded members
and their net charges; `num_nodes` is set from `len(x_p)` alone. -/
structure PairData where
  edge_index_p : List (Nat × Nat)
  edge_attr_p : List (List FeatVal)
  x_p : List (List FeatVal)
  charge_prot : Int
  edge_index_d : List (Nat × Nat)
  edge_attr_d : List (List FeatVal)
  x_d : List (List FeatVal)
  charge_deprot : Int
  num_nodes : Nat
deriving DecidableEq, Repr

/-- Embeds `mol_to_paired_mol_data` (data.py lines 228-251): encode the protonated
and the deprotonated member with `mol_to_features` and package both into a
`PairData`.  The source performs no comparison of the two members. -/
def molToPairedMolData (row : DataRow) (nfs : List NodeFeature)
    (efs : List EdgeFeature) : PairData :=
  let p := molToFeatures row nfs efs .protonated
  let d := molToFeatures row nfs efs .deprotonated
  ⟨p.2.1, p.2.2.1, p.1, p.2.2.2, d.2.1, d.2.2.1, d.1, d.2.2.2, p.1.length⟩

/-- Modelled from the spec: `create_conjugate` (src/pkasolver/chem.py lines
6-36) cannot be loaded as written, because line 28 reads
`elif pka > pH and Tot_Hs = 0:` - an assignment inside a condition, which is a
Python syntax error - so the decision table is taken from spec section 4.2,
which reads that condition as `Tot_Hs == 0`.  Rows 1, 2 and 4 coincide with
the source text.  The `RWMol` copy makes the function pure and the failing
fourth row (`raise RuntimeError()`, the spec's InvalidChemistryError) is
`none`; `UpdatePropertyCache` refreshes cached properties only. -/
def createConjugate (mol : Molecule) (id : Nat) (pka : ℚ) (pH : ℚ := 37/5) :
    Option Molecule :=
  if (pH < pka ∧ 0 < (getAtom mol id).totHs) ∨ 0 < (getAtom mol id).charge then
    some (setAtom mol id
      { getAtom mol id with
          charge := (getAtom mol id).charge - 1,
          explicitHs :=
            if 0 < (getAtom mol id).explicitHs then (getAtom mol id).explicitHs - 1
            else (getAtom mol id).explicitHs })
  else if pka < pH ∧ (getAtom mol id).charge ≤ 0 then
    some (setAtom mol id
      { getAtom mol id with
          charge := (getAtom mol id).charge + 1,
          explicitHs :=
            if (getAtom mol id).totHs = 0 ∨ 0 < (getAtom mol id).explicitHs then
              (getAtom mol id).explicitHs + 1
            else (getAtom mol id).explicitHs })
  else if pH < pka ∧ (getAtom mol id).totHs = 0 then
    some (setAtom mol id
      { getAtom mol id with
          charge := (getAtom mol id).charge + 1,
          explicitHs :=
            if (getAtom mol id).totHs = 0 ∨ 0 < (getAtom mol id).explicitHs then
              (getAtom mol id).explicitHs + 1
            else (getAtom mol id).explicitHs })
  else
    none

/-- A single oxygen atom carrying formal charge -3 and no hydrogens: the
input of the termination counterexample. -/
def oxideMinus3 : Molecule := ⟨[⟨8, -3, 0, 0⟩], []⟩

/-- The toluene-like test molecule `Cc1ccccc1` of
tests/test_data_generation.py: seven neutral carbons, a single C-C bond
followed by the six aromatic ring bonds. -/
def toluene : Molecule :=
  ⟨[⟨6, 0, 0, 3⟩, ⟨6, 0, 0, 0⟩, ⟨6, 0, 0, 1⟩, ⟨6, 0, 0, 1⟩, ⟨6, 0, 0, 1⟩,
    ⟨6, 0, 0, 1⟩, ⟨6, 0, 0, 1⟩],
   [⟨0, 1, 1, false, false⟩, ⟨1, 2, 3/2, true, false⟩, ⟨2, 3, 3/2, true, false⟩,
    ⟨3, 4, 3/2, true, false⟩, ⟨4, 5, 3/2, true, false⟩, ⟨5, 6, 3/2, true, false⟩,
    ⟨6, 1, 3/2, true, false⟩]⟩

/-- A neutral nitrogen atom with no hydrogens, as a one-atom molecule: the
concrete input used by several witnesses. -/
def nNeutral : Molecule := ⟨[⟨7, 0, 0, 0⟩], []⟩

/-- Two protonation variants of a two-atom molecule that differ in formal
charge only at atom 1: a concrete input for the enumerator witness. -/
def chargeVariants : List Molecule :=
  [⟨[⟨8, 0, 0, 0⟩, ⟨7, 0, 0, 0⟩], []⟩, ⟨[⟨8, 0, 0, 0⟩, ⟨7, 1, 0, 0⟩], []⟩]

/-! ### List helper lemmas -/

theorem getD_set_self {α : Type} (l : List α) (i : Nat) (a d : α)
    (h : i < l.length) : (l.set i a).getD i d = a := by
  induction l generalizing i with
  | nil => simp at h
  | cons x xs ih =>
    cases i with
    | zero => simp
    | succ j => simpa using ih j (by simpa using h)

theorem getD_set_ne {α : Type} (l : List α) (i j : Nat) (a d : α)
    (h : i ≠ j) : (l.set i a).getD j d = l.getD j d := by
  induction l generalizing i j with
  | nil => simp
  | cons x xs ih =>
    cases i with
    | zero =>
      cases j with
      | zero => exact absurd rfl h
      | succ j2 => simp
    | succ i2 =>
      cases j with
      | zero => simp
      | succ j2 => simpa using ih i2 j2 (by omega)

theorem sum_map_le_sum_map {α : Type} (l : List α) (f g : α → Nat)
    (h : ∀ x ∈ l, g x ≤ f x) : (l.map g).sum ≤ (l.map f).sum := by
  induction l with
  | nil => simp
  | cons x xs ih =>
    simp only [List.map_cons, List.sum_cons]
    have h1 := h x (by simp)
    have h2 := ih (fun y hy => h y (by simp [hy]))
    omega

theorem sum_map_lt_sum_map {α : Type} [DecidableEq α] (l : List α) (f g : α → Nat)
    (h : ∀ x ∈ l, g x ≤ f x) (m : α) (hm : m ∈ l) (hlt : g m < f m) :
    (l.map g).sum < (l.map f).sum := by
  induction l with
  | nil => simp at hm
  | cons x xs ih =>
    simp only [List.map_cons, List.sum_cons]
    rcases List.mem_cons.mp hm with hx | hxs
    · subst hx
      have h2 := sum_map_le_sum_map xs f g (fun y hy => h y (by simp [hy]))
      omega
    · have h1 := h x (by simp)
      have h2 := ih (fun y hy => h y (by simp [hy])) hxs
      omega

theorem le_sum_map_of_mem {α : Type} (l : List α) (f : α → Nat) (x : α)
    (hx : x ∈ l) : f x ≤ (l.map f).sum := by
  induction l with
  | nil => simp at hx
  | cons y ys ih =>
    simp only [List.map_cons, List.sum_cons]
    rcases List.mem_cons.mp hx with h | h
    · subst h; omega
    · have := ih h; omega

theorem getD_map_of_lt {α β : Type} (l : List α) (f : α → β) (i : Nat)
    (d : β) (d2 : α) (h : i < l.length) :
    (l.map f).getD i d = f (l.getD i d2) := by
  induction l generalizing i with
  | nil => simp at h
  | cons x xs ih =>
    cases i with
    | zero => simp
    | succ j => simpa using ih j (by simpa using h)

theorem getD_mem_of_lt {α : Type} (l : List α) (i : Nat) (d : α)
    (h : i < l.length) : l.getD i d ∈ l := by
  induction l generalizing i with
  | nil => simp at h
  | cons x xs ih =>
    cases i with
    | zero => simp
    | succ j => simpa using Or.inr (ih j (by simpa using h))

theorem getLastD_cons_ne_nil {α : Type} (l : List α) (x d : α) (h : l ≠ []) :
    (x :: l).getLastD d = l.getLastD d := by
  cases l with
  | nil => exact absurd rfl h
  | cons y ys => simp [List.getLastD_cons]

theorem getLastD_append_singleton {α : Type} (l : List α) (x d : α) :
    (l ++ [x]).getLastD d = x := by
  induction l generalizing d with
  | nil => rfl
  | cons y ys ih =>
    rw [List.cons_append, List.getLastD_cons]
    exact ih y

/-! ### `listMax`, `listMin`, `firstIdxOf` lemmas -/

theorem foldl_max_mem (xs : List ℚ) (a : ℚ) :
    xs.foldl max a = a ∨ xs.foldl max a ∈ xs := by
  induction xs generalizing a with
  | nil => simp
  | cons x xs ih =>
    simp only [List.foldl_cons]
    rcases ih (max a x) with h | h
    · rcases max_choice a x with hm | hm
      · left; rw [h, hm]
      · right; rw [h, hm]; simp
    · right; simp [h]

theorem le_foldl_max (xs : List ℚ) (a : ℚ) :
    a ≤ xs.foldl max a ∧ ∀ x ∈ xs, x ≤ xs.foldl max a := by
  induction xs generalizing a with
  | nil => simp
  | cons x xs ih =>
    simp only [List.foldl_cons]
    obtain ⟨h1, h2⟩ := ih (max a x)
    refine ⟨le_trans (le_max_left a x) h1, ?_⟩
    intro y hy
    rcases List.mem_cons.mp hy with h | h
    · rw [h]; exact le_trans (le_max_right a x) h1
    · exact h2 y h

theorem listMax_mem (l : List ℚ) (h : l ≠ []) : listMax l ∈ l := by
  cases l with
  | nil => exact absurd rfl h
  | cons x xs =>
    rcases foldl_max_mem xs x with h1 | h1
    · simp [listMax, h1]
    · simp [listMax, h1]

theorem le_listMax (l : List ℚ) (x : ℚ) (hx : x ∈ l) : x ≤ listMax l := by
  cases l with
  | nil => simp at hx
  | cons y ys =>
    rcases List.mem_cons.mp hx with h | h
    · rw [h]; exact (le_foldl_max ys y).1
    · exact (le_foldl_max ys y).2 x h

theorem foldl_min_mem (xs : List ℚ) (a : ℚ) :
    xs.foldl min a = a ∨ xs.foldl min a ∈ xs := by
  induction xs generalizing a with
  | nil => simp
  | cons x xs ih =>
    simp only [List.foldl_cons]
    rcases ih (min a x) with h | h
    · rcases min_choice a x with hm | hm
      · left; rw [h, hm]
      · right; rw [h, hm]; simp
    · right; simp [h]

theorem foldl_min_le (xs : List ℚ) (a : ℚ) :
    xs.foldl min a ≤ a ∧ ∀ x ∈ xs, xs.foldl min a ≤ x := by
  induction xs generalizing a with
  | nil => simp
  | cons x xs ih =>
    simp only [List.foldl_cons]
    obtain ⟨h1, h2⟩ := ih (min a x)
    refine ⟨le_trans h1 (min_le_left a x), ?_⟩
    intro y hy
    rcases List.mem_cons.mp hy with h | h
    · rw [h]; exact le_trans h1 (min_le_right a x)
    · exact h2 y h

theorem listMin_mem (l : List ℚ) (h : l ≠ []) : listMin l ∈ l := by
  cases l with
  | nil => exact absurd rfl h
  | cons x xs =>
    rcases foldl_min_mem xs x with h1 | h1
    · simp [listMin, h1]
    · simp [listMin, h1]

theorem listMin_le (l : List ℚ) (x : ℚ) (hx : x ∈ l) : listMin l ≤ x := by
  cases l with
  | nil => simp at hx
  | cons y ys =>
    rcases List.mem_cons.mp hx with h | h
    · rw [h]; exact (foldl_min_le ys y).1
    · exact (foldl_min_le ys y).2 x h

theorem firstIdxOf_lt_length (l : List ℚ) (a : ℚ) (h : a ∈ l) :
    firstIdxOf l a < l.length := by
  induction l with
  | nil => simp at h
  | cons x xs ih =>
    simp only [firstIdxOf, List.findIdx_cons]
    by_cases hx : x = a
    · rw [decide_eq_true hx]
      simp
    · have h1 : a ∈ xs := by
        rcases List.mem_cons.mp h with h2 | h2
        · exact absurd h2.symm hx
        · exact h2
      rw [decide_eq_false hx]
      simp only [Bool.cond_false, List.length_cons]
      have := ih h1
      simp only [firstIdxOf] at this
      omega

theorem getD_firstIdxOf (l : List ℚ) (a d : ℚ) (h : a ∈ l) :
    l.getD (firstIdxOf l a) d = a := by
  induction l with
  | nil => simp at h
  | cons x xs ih =>
    simp only [firstIdxOf, List.findIdx_cons]
    by_cases hx : x = a
    · rw [decide_eq_true hx]
      simpa using hx
    · have h1 : a ∈ xs := by
        rcases List.mem_cons.mp h with h2 | h2
        · exact absurd h2.symm hx
        · exact h2
      rw [decide_eq_false hx]
      simp only [Bool.cond_false, List.getD_cons_succ]
      exact ih h1

theorem firstIdxOf_min (l : List ℚ) (a d : ℚ) (j : Nat)
    (h : j < firstIdxOf l a) : l.getD j d ≠ a := by
  induction l generalizing j with
  | nil => simp [firstIdxOf] at h
  | cons x xs ih =>
    simp only [firstIdxOf, List.findIdx_cons] at h
    by_cases hx : x = a
    · rw [decide_eq_true hx] at h
      simp at h
    · rw [decide_eq_false hx] at h
      simp only [Bool.cond_false] at h
      cases j with
      | zero => simpa using hx
      | succ j2 =>
        simp only [List.getD_cons_succ]
        exact ih j2 (by simp only [firstIdxOf]; omega)

/-! ### Characterization of `get_possible_reactions` -/

theorem gpr_acid_eq (mo : MolObject) (sites : List Nat) :
    (getPossibleReactions mo sites).1 =
      (sites.filter (fun m => acidCondB (getAtom mo.chem m))).map
        (fun m => (protonateMol mo.chem m, mo.chem, m)) := by
  induction sites generalizing mo with
  | nil => rfl
  | cons m rest ih =>
    simp only [getPossibleReactions, List.filter_cons]
    by_cases hc : acidCondB (getAtom mo.chem m)
    · simp [hc, ih]
    · simp [hc, ih]

theorem gpr_base_eq (mo : MolObject) (sites : List Nat) :
    (getPossibleReactions mo sites).2.1 =
      (sites.filter (fun m => baseCondB (getAtom mo.chem m))).map
        (fun m => (mo.chem, deprotonateMol mo.chem m, m)) := by
  induction sites generalizing mo with
  | nil => rfl
  | cons m rest ih =>
    simp only [getPossibleReactions, List.filter_cons]
    by_cases hc : baseCondB (getAtom mo.chem m)
    · simp [hc, ih]
    · simp [hc, ih]

theorem gpr_obj_nil (mo : MolObject) :
    (getPossibleReactions mo []).2.2 = mo := rfl

theorem gpr_obj_ne_nil (mo : MolObject) (sites : List Nat) (h : sites ≠ []) :
    (getPossibleReactions mo sites).2.2 =
      ⟨mo.chem, some [sites.getLastD 0]⟩ := by
  induction sites generalizing mo with
  | nil => exact absurd rfl h
  | cons m rest ih =>
    cases rest with
    | nil => rfl
    | cons m2 rest2 =>
      show (getPossibleReactions ⟨mo.chem, some [m]⟩ (m2 :: rest2)).2.2 = _
      rw [ih ⟨mo.chem, some [m]⟩ (by simp)]
      simp [List.getLastD_cons]

/-- The membership form of `gpr_acid_eq`: a pair is produced in the acid
direction exactly for the qualifying sites. -/
theorem mem_gpr_acid (mo : MolObject) (sites : List Nat) (p : RPair) :
    p ∈ (getPossibleReactions mo sites).1 ↔
      ∃ m ∈ sites, acidCondB (getAtom mo.chem m) = true ∧
        p = (protonateMol mo.chem m, mo.chem, m) := by
  rw [gpr_acid_eq]
  simp only [List.mem_map, List.mem_filter]
  constructor
  · rintro ⟨m, ⟨hm, hc⟩, hp⟩
    exact ⟨m, hm, hc, hp.symm⟩
  · rintro ⟨m, hm, hc, hp⟩
    exact ⟨m, ⟨hm, hc⟩, hp.symm⟩

theorem mem_gpr_base (mo : MolObject) (sites : List Nat) (p : RPair) :
    p ∈ (getPossibleReactions mo sites).2.1 ↔
      ∃ m ∈ sites, baseCondB (getAtom mo.chem m) = true ∧
        p = (mo.chem, deprotonateMol mo.chem m, m) := by
  rw [gpr_base_eq]
  simp only [List.mem_map, List.mem_filter]
  constructor
  · rintro ⟨m, ⟨hm, hc⟩, hp⟩
    exact ⟨m, hm, hc, hp.symm⟩
  · rintro ⟨m, hm, hc, hp⟩
    exact ⟨m, ⟨hm, hc⟩, hp.symm⟩

/-! ### Behaviour of `acid_sequence` and `base_sequence` -/

theorem matchPka_length (r : RPair → ℚ) (pairs : List RPair) :
    (matchPka r pairs).length = pairs.length := List.length_map _ _

theorem matchPka_getD (r : RPair → ℚ) (pairs : List RPair) (j : Nat)
    (h : j < pairs.length) :
    (matchPka r pairs).getD j 0 = round3 (r (pairs.getD j default)) :=
  getD_map_of_lt pairs _ j 0 default h

/-- Lemma: `acid_sequence` either leaves the state unchanged (no pairs, or the
maximum rounded prediction is below 0.5), or prepends the first pair whose
rounded prediction attains the maximum. -/
theorem acidSequence_spec (r : RPair → ℚ) (pairs : List RPair) (s : SeqState) :
    (acidSequence r pairs s = s ∧
      (pairs = [] ∨ listMax (matchPka r pairs) < 1/2)) ∨
    (∃ k, k < pairs.length ∧
      round3 (r (pairs.getD k default)) = listMax (matchPka r pairs) ∧
      (∀ j, j < k → round3 (r (pairs.getD j default)) ≠ listMax (matchPka r pairs)) ∧
      ¬ listMax (matchPka r pairs) < 1/2 ∧
      acidSequence r pairs s =
        ⟨(pairs.getD k default).1 :: s.mols,
         listMax (matchPka r pairs) :: s.pkas,
         (pairs.getD k default).2.2 :: s.atoms⟩) := by
  by_cases hemp : pairs.isEmpty
  · left
    refine ⟨?_, Or.inl (List.isEmpty_iff.mp hemp)⟩
    simp only [acidSequence]
    rw [if_pos hemp]
  · have hne : pairs ≠ [] := fun h => by simp [h] at hemp
    have hpkne : matchPka r pairs ≠ [] := by
      have := matchPka_length r pairs
      intro h
      rw [h] at this
      exact hne (List.length_eq_zero.mp this.symm)
    by_cases hlt : listMax (matchPka r pairs) < 1/2
    · left
      refine ⟨?_, Or.inr hlt⟩
      simp only [acidSequence]
      rw [if_neg hemp, if_pos hlt]
    · right
      have hmem : listMax (matchPka r pairs) ∈ matchPka r pairs :=
        listMax_mem _ hpkne
      have hklen := firstIdxOf_lt_length _ _ hmem
      have hlen := matchPka_length r pairs
      refine ⟨firstIdxOf (matchPka r pairs) (listMax (matchPka r pairs)),
        by omega, ?_, ?_, hlt, ?_⟩
      · have h1 := getD_firstIdxOf (matchPka r pairs) (listMax (matchPka r pairs)) 0 hmem
        rwa [matchPka_getD r pairs _ (by omega)] at h1
      · intro j hj
        have h2 := firstIdxOf_min (matchPka r pairs) (listMax (matchPka r pairs)) 0 j hj
        rwa [matchPka_getD r pairs j (by omega)] at h2
      · simp only [acidSequence]
        rw [if_neg hemp, if_neg hlt]

/-- Lemma: `base_sequence` either leaves the state unchanged (no pairs, or the
minimum rounded prediction is above 13.5), or appends the first pair whose
rounded prediction attains the minimum. -/
theorem baseSequence_spec (r : RPair → ℚ) (pairs : List RPair) (s : SeqState) :
    (baseSequence r pairs s = s ∧
      (pairs = [] ∨ 27/2 < listMin (matchPka r pairs))) ∨
    (∃ k, k < pairs.length ∧
      round3 (r (pairs.getD k default)) = listMin (matchPka r pairs) ∧
      (∀ j, j < k → round3 (r (pairs.getD j default)) ≠ listMin (matchPka r pairs)) ∧
      ¬ 27/2 < listMin (matchPka r pairs) ∧
      baseSequence r pairs s =
        ⟨s.mols ++ [(pairs.getD k default).2.1],
         s.pkas ++ [listMin (matchPka r pairs)],
         s.atoms ++ [(pairs.getD k default).2.2]⟩) := by
  by_cases hemp : pairs.isEmpty
  · left
    refine ⟨?_, Or.inl (List.isEmpty_iff.mp hemp)⟩
    simp only [baseSequence]
    rw [if_pos hemp]
  · have hne : pairs ≠ [] := fun h => by simp [h] at hemp
    have hpkne : matchPka r pairs ≠ [] := by
      have := matchPka_length r pairs
      intro h
      rw [h] at this
      exact hne (List.length_eq_zero.mp this.symm)
    by_cases hgt : 27/2 < listMin (matchPka r pairs)
    · left
      refine ⟨?_, Or.inr hgt⟩
      simp only [baseSequence]
      rw [if_neg hemp, if_pos hgt]
    · right
      have hmem : listMin (matchPka r pairs) ∈ matchPka r pairs :=
        listMin_mem _ hpkne
      have hklen := firstIdxOf_lt_length _ _ hmem
      have hlen := matchPka_length r pairs
      refine ⟨firstIdxOf (matchPka r pairs) (listMin (matchPka r pairs)),
        by omega, ?_, ?_, hgt, ?_⟩
      · have h1 := getD_firstIdxOf (matchPka r pairs) (listMin (matchPka r pairs)) 0 hmem
        rwa [matchPka_getD r pairs _ (by omega)] at h1
      · intro j hj
        have h2 := firstIdxOf_min (matchPka r pairs) (listMin (matchPka r pairs)) 0 j hj
        rwa [matchPka_getD r pairs j (by omega)] at h2
      · simp only [baseSequence]
        rw [if_neg hemp, if_neg hgt]

/-! ### Potential arguments for termination of the two search loops -/

theorem acidCondB_default_false : acidCondB default = false := by decide

theorem baseCondB_default_false : baseCondB default = false := by decide

theorem acidCondB_lt_length (mol : Molecule) (m : Nat)
    (h : acidCondB (getAtom mol m) = true) : m < mol.atoms.length := by
  by_contra hge
  rw [getAtom, List.getD_eq_default _ _ (by omega)] at h
  rw [acidCondB_default_false] at h
  exact Bool.false_ne_true h

theorem baseCondB_lt_length (mol : Molecule) (m : Nat)
    (h : baseCondB (getAtom mol m) = true) : m < mol.atoms.length := by
  by_contra hge
  rw [getAtom, List.getD_eq_default _ _ (by omega)] at h
  rw [baseCondB_default_false] at h
  exact Bool.false_ne_true h

theorem acidCondB_iff (a : Atom) :
    acidCondB a = true ↔ (a.element = 7 ∧ a.charge ≤ 0) ∨ a.charge < 0 := by
  simp [acidCondB]

theorem baseCondB_iff (a : Atom) :
    baseCondB a = true ↔
      0 < a.totHs ∧ 0 ≤ a.charge ∧
        ¬(a.element = 7 ∧ a.charge = 0 ∧ a.totHs = 1) := by
  simp [baseCondB]
  tauto

theorem protonateAtom_element (a : Atom) :
    (protonateAtom a).element = a.element := by
  unfold protonateAtom
  split <;> rfl

theorem protonateAtom_charge (a : Atom) :
    (protonateAtom a).charge = a.charge + 1 := by
  unfold protonateAtom
  split <;> rfl

theorem deprotonateAtom_element (a : Atom) :
    (deprotonateAtom a).element = a.element := by
  unfold deprotonateAtom
  split <;> rfl

theorem deprotonateAtom_charge (a : Atom) :
    (deprotonateAtom a).charge = a.charge - 1 := by
  unfold deprotonateAtom
  split <;> rfl

theorem acidDeficit_protonateAtom (a : Atom) (h : acidCondB a = true) :
    acidDeficit (protonateAtom a) + 1 = acidDeficit a := by
  have h2 := (acidCondB_iff a).mp h
  unfold acidDeficit
  rw [protonateAtom_element, protonateAtom_charge]
  by_cases hel : a.element = 7
  · rw [if_pos hel, if_pos hel]
    rcases h2 with ⟨_, hc⟩ | hc <;> omega
  · rw [if_neg hel, if_neg hel]
    rcases h2 with ⟨hel2, _⟩ | hc
    · exact absurd hel2 hel
    · omega

theorem baseCredit_deprotonateAtom (a : Atom) (h : baseCondB a = true) :
    baseCredit (deprotonateAtom a) + 1 = baseCredit a := by
  have h2 := (baseCondB_iff a).mp h
  unfold baseCredit
  rw [deprotonateAtom_charge]
  omega

theorem length_protonateMol (mol : Molecule) (m : Nat) :
    (protonateMol mol m).atoms.length = mol.atoms.length := by
  simp [protonateMol, setAtom]

theorem length_deprotonateMol (mol : Molecule) (m : Nat) :
    (deprotonateMol mol m).atoms.length = mol.atoms.length := by
  simp [deprotonateMol, setAtom]

theorem getAtom_protonateMol_self (mol : Molecule) (m : Nat)
    (h : m < mol.atoms.length) :
    getAtom (protonateMol mol m) m = protonateAtom (getAtom mol m) :=
  getD_set_self mol.atoms m _ default h

theorem getAtom_protonateMol_ne (mol : Molecule) (m k : Nat) (h : m ≠ k) :
    getAtom (protonateMol mol m) k = getAtom mol k :=
  getD_set_ne mol.atoms m k _ default h

theorem getAtom_deprotonateMol_self (mol : Molecule) (m : Nat)
    (h : m < mol.atoms.length) :
    getAtom (deprotonateMol mol m) m = deprotonateAtom (getAtom mol m) :=
  getD_set_self mol.atoms m _ default h

theorem getAtom_deprotonateMol_ne (mol : Molecule) (m k : Nat) (h : m ≠ k) :
    getAtom (deprotonateMol mol m) k = getAtom mol k :=
  getD_set_ne mol.atoms m k _ default h

theorem acidPotential_protonateMol_lt (mol : Molecule) (sites : List Nat)
    (m : Nat) (hm : m ∈ sites) (hc : acidCondB (getAtom mol m) = true) :
    acidPotential sites (protonateMol mol m) < acidPotential sites mol := by
  have hlt := acidCondB_lt_length mol m hc
  have hdec := acidDeficit_protonateAtom (getAtom mol m) hc
  apply sum_map_lt_sum_map sites _ _ ?_ m hm ?_
  · intro k hk
    by_cases hkm : m = k
    · subst hkm
      rw [getAtom_protonateMol_self mol m hlt]
      omega
    · rw [getAtom_protonateMol_ne mol m k hkm]
  · rw [getAtom_protonateMol_self mol m hlt]
    omega

theorem basePotential_deprotonateMol_lt (mol : Molecule) (sites : List Nat)
    (m : Nat) (hm : m ∈ sites) (hc : baseCondB (getAtom mol m) = true) :
    basePotential sites (deprotonateMol mol m) < basePotential sites mol := by
  have hlt := baseCondB_lt_length mol m hc
  have hdec := baseCredit_deprotonateAtom (getAtom mol m) hc
  apply sum_map_lt_sum_map sites _ _ ?_ m hm ?_
  · intro k hk
    by_cases hkm : m = k
    · subst hkm
      rw [getAtom_deprotonateMol_self mol m hlt]
      omega
    · rw [getAtom_deprotonateMol_ne mol m k hkm]
  · rw [getAtom_deprotonateMol_self mol m hlt]
    omega

theorem one_le_acidPotential (mol : Molecule) (sites : List Nat) (m : Nat)
    (hm : m ∈ sites) (hc : acidCondB (getAtom mol m) = true) :
    1 ≤ acidPotential sites mol := by
  have hdec := acidDeficit_protonateAtom (getAtom mol m) hc
  have h3 : acidDeficit (getAtom mol m) ≤
      (sites.map (fun k => acidDeficit (getAtom mol k))).sum :=
    le_sum_map_of_mem sites (fun k => acidDeficit (getAtom mol k)) m hm
  simp only [acidPotential]
  omega

theorem one_le_basePotential (mol : Molecule) (sites : List Nat) (m : Nat)
    (hm : m ∈ sites) (hc : baseCondB (getAtom mol m) = true) :
    1 ≤ basePotential sites mol := by
  have hdec := baseCredit_deprotonateAtom (getAtom mol m) hc
  have h3 : baseCredit (getAtom mol m) ≤
      (sites.map (fun k => baseCredit (getAtom mol k))).sum :=
    le_sum_map_of_mem sites (fun k => baseCredit (getAtom mol k)) m hm
  simp only [basePotential]
  omega

/-! ### One-step and loop analysis of the two search phases -/

/-- An acid-phase iteration either leaves the state unchanged or prepends a
protonated copy of the current front molecule at a qualifying site together
with one more pKa entry. -/
theorem acidStep_cases (r : RPair → ℚ) (sites : List Nat) (s : SeqState) :
    acidStep r sites s = s ∨
    ∃ m ∈ sites, acidCondB (getAtom s.mols.headI m) = true ∧
      (acidStep r sites s).mols = protonateMol s.mols.headI m :: s.mols ∧
      (acidStep r sites s).pkas.length = s.pkas.length + 1 := by
  rcases acidSequence_spec r (getPossibleReactions ⟨s.mols.headI, none⟩ sites).1 s with
    ⟨heq, _⟩ | ⟨k, hk, _, _, _, heq⟩
  · exact Or.inl heq
  · right
    have hsel : (getPossibleReactions ⟨s.mols.headI, none⟩ sites).1.getD k default ∈
        (getPossibleReactions ⟨s.mols.headI, none⟩ sites).1 :=
      getD_mem_of_lt _ k default hk
    rcases (mem_gpr_acid _ sites _).mp hsel with ⟨m, hm, hc, hp⟩
    refine ⟨m, hm, hc, ?_, ?_⟩
    · rw [show acidStep r sites s =
        acidSequence r (getPossibleReactions ⟨s.mols.headI, none⟩ sites).1 s from rfl,
        heq, hp]
    · rw [show acidStep r sites s =
        acidSequence r (getPossibleReactions ⟨s.mols.headI, none⟩ sites).1 s from rfl,
        heq]
      simp

/-- A base-phase iteration either leaves the state unchanged or appends a
deprotonated copy of the current tail molecule at a qualifying site together
with one more pKa entry. -/
theorem baseStep_cases (r : RPair → ℚ) (sites : List Nat) (s : SeqState) :
    baseStep r sites s = s ∨
    ∃ m ∈ sites, baseCondB (getAtom (s.mols.getLastD default) m) = true ∧
      (baseStep r sites s).mols =
        s.mols ++ [deprotonateMol (s.mols.getLastD default) m] ∧
      (baseStep r sites s).pkas.length = s.pkas.length + 1 := by
  rcases baseSequence_spec r
      (getPossibleReactions ⟨s.mols.getLastD default, none⟩ sites).2.1 s with
    ⟨heq, _⟩ | ⟨k, hk, _, _, _, heq⟩
  · exact Or.inl heq
  · right
    have hsel : (getPossibleReactions ⟨s.mols.getLastD default, none⟩ sites).2.1.getD
        k default ∈
        (getPossibleReactions ⟨s.mols.getLastD default, none⟩ sites).2.1 :=
      getD_mem_of_lt _ k default hk
    rcases (mem_gpr_base _ sites _).mp hsel with ⟨m, hm, hc, hp⟩
    refine ⟨m, hm, hc, ?_, ?_⟩
    · rw [show baseStep r sites s =
        baseSequence r (getPossibleReactions ⟨s.mols.getLastD default, none⟩ sites).2.1 s
          from rfl, heq, hp]
    · rw [show baseStep r sites s =
        baseSequence r (getPossibleReactions ⟨s.mols.getLastD default, none⟩ sites).2.1 s
          from rfl, heq]
      simp

theorem acidLoop_exit (r : RPair → ℚ) (sites : List Nat) (s : SeqState)
    (fuel : Nat) (h : (acidStep r sites s).pkas.length ≤ s.pkas.length) :
    acidLoop r sites (fuel + 1) s = acidStep r sites s := by
  simp only [acidLoop]
  rw [if_pos h]

theorem acidLoop_go (r : RPair → ℚ) (sites : List Nat) (s : SeqState)
    (fuel : Nat) (h : ¬ (acidStep r sites s).pkas.length ≤ s.pkas.length) :
    acidLoop r sites (fuel + 1) s = acidLoop r sites fuel (acidStep r sites s) := by
  simp only [acidLoop]
  rw [if_neg h]

theorem baseLoop_exit (r : RPair → ℚ) (sites : List Nat) (s : SeqState)
    (fuel : Nat) (h : (baseStep r sites s).pkas.length ≤ s.pkas.length) :
    baseLoop r sites (fuel + 1) s = baseStep r sites s := by
  simp only [baseLoop]
  rw [if_pos h]

theorem baseLoop_go (r : RPair → ℚ) (sites : List Nat) (s : SeqState)
    (fuel : Nat) (h : ¬ (baseStep r sites s).pkas.length ≤ s.pkas.length) :
    baseLoop r sites (fuel + 1) s = baseLoop r sites fuel (baseStep r sites s) := by
  simp only [baseLoop]
  rw [if_neg h]

/-- Any fuel of at least `acidPotential + 1` gives the acid loop's limit:
every accepted step strictly decreases the potential of the front molecule. -/
theorem acidLoop_stable (V : Nat) : ∀ (r : RPair → ℚ) (sites : List Nat)
    (s : SeqState), acidPotential sites s.mols.headI ≤ V →
    ∀ fuel, V + 1 ≤ fuel →
    acidLoop r sites fuel s = acidLoop r sites (V + 1) s := by
  induction V with
  | zero =>
    intro r sites s hpot fuel hfuel
    obtain ⟨f2, rfl⟩ : ∃ f2, fuel = f2 + 1 := ⟨fuel - 1, by omega⟩
    rcases acidStep_cases r sites s with hstep | ⟨m, hm, hc, _, hlen⟩
    · have hle : (acidStep r sites s).pkas.length ≤ s.pkas.length := by rw [hstep]
      rw [acidLoop_exit r sites s f2 hle, acidLoop_exit r sites s 0 hle]
    · exact absurd (one_le_acidPotential s.mols.headI sites m hm hc) (by omega)
  | succ V ih =>
    intro r sites s hpot fuel hfuel
    obtain ⟨f2, rfl⟩ : ∃ f2, fuel = f2 + 1 := ⟨fuel - 1, by omega⟩
    rcases acidStep_cases r sites s with hstep | ⟨m, hm, hc, hmols, hlen⟩
    · have hle : (acidStep r sites s).pkas.length ≤ s.pkas.length := by rw [hstep]
      rw [acidLoop_exit r sites s f2 hle, acidLoop_exit r sites s (V + 1) hle]
    · have hgt : ¬ (acidStep r sites s).pkas.length ≤ s.pkas.length := by omega
      rw [acidLoop_go r sites s f2 hgt, acidLoop_go r sites s (V + 1) hgt]
      have hhead : (acidStep r sites s).mols.headI = protonateMol s.mols.headI m := by
        rw [hmols]; rfl
      have hpot2 : acidPotential sites (acidStep r sites s).mols.headI ≤ V := by
        rw [hhead]
        have := acidPotential_protonateMol_lt s.mols.headI sites m hm hc
        omega
      rw [ih r sites (acidStep r sites s) hpot2 f2 (by omega),
        ih r sites (acidStep r sites s) hpot2 (V + 1) (by omega)]

/-- Any fuel of at least `basePotential + 1` (potential of the tail molecule)
gives the base loop's limit. -/
theorem baseLoop_stable (W : Nat) : ∀ (r : RPair → ℚ) (sites : List Nat)
    (s : SeqState), basePotential sites (s.mols.getLastD default) ≤ W →
    ∀ fuel, W + 1 ≤ fuel →
    baseLoop r sites fuel s = baseLoop r sites (W + 1) s := by
  induction W with
  | zero =>
    intro r sites s hpot fuel hfuel
    obtain ⟨f2, rfl⟩ : ∃ f2, fuel = f2 + 1 := ⟨fuel - 1, by omega⟩
    rcases baseStep_cases r sites s with hstep | ⟨m, hm, hc, _, hlen⟩
    · have hle : (baseStep r sites s).pkas.length ≤ s.pkas.length := by rw [hstep]
      rw [baseLoop_exit r sites s f2 hle, baseLoop_exit r sites s 0 hle]
    · exact absurd (one_le_basePotential (s.mols.getLastD default) sites m hm hc)
        (by omega)
  | succ W ih =>
    intro r sites s hpot fuel hfuel
    obtain ⟨f2, rfl⟩ : ∃ f2, fuel = f2 + 1 := ⟨fuel - 1, by omega⟩
    rcases baseStep_cases r sites s with hstep | ⟨m, hm, hc, hmols, hlen⟩
    · have hle : (baseStep r sites s).pkas.length ≤ s.pkas.length := by rw [hstep]
      rw [baseLoop_exit r sites s f2 hle, baseLoop_exit r sites s (W + 1) hle]
    · have hgt : ¬ (baseStep r sites s).pkas.length ≤ s.pkas.length := by omega
      rw [baseLoop_go r sites s f2 hgt, baseLoop_go r sites s (W + 1) hgt]
      have hlast : (baseStep r sites s).mols.getLastD default =
          deprotonateMol (s.mols.getLastD default) m := by
        rw [hmols]
        exact getLastD_append_singleton s.mols _ default
      have hpot2 : basePotential sites ((baseStep r sites s).mols.getLastD default)
          ≤ W := by
        rw [hlast]
        have := basePotential_deprotonateMol_lt (s.mols.getLastD default) sites m hm hc
        omega
      rw [ih r sites (baseStep r sites s) hpot2 f2 (by omega),
        ih r sites (baseStep r sites s) hpot2 (W + 1) (by omega)]

/-- The acid phase only prepends, so the tail molecule of the sequence (the
one the base phase starts from) never changes and the list stays nonempty. -/
theorem acidLoop_preserves_last (r : RPair → ℚ) (sites : List Nat) :
    ∀ (fuel : Nat) (s : SeqState), s.mols ≠ [] →
    (acidLoop r sites fuel s).mols ≠ [] ∧
      (acidLoop r sites fuel s).mols.getLastD default = s.mols.getLastD default := by
  intro fuel
  induction fuel with
  | zero => exact fun s h => ⟨h, rfl⟩
  | succ f ih =>
    intro s h
    rcases acidStep_cases r sites s with hstep | ⟨m, hm, hc, hmols, hlen⟩
    · have hle : (acidStep r sites s).pkas.length ≤ s.pkas.length := by rw [hstep]
      rw [acidLoop_exit r sites s f hle, hstep]
      exact ⟨h, rfl⟩
    · have hgt : ¬ (acidStep r sites s).pkas.length ≤ s.pkas.length := by omega
      rw [acidLoop_go r sites s f hgt]
      have h2 : (acidStep r sites s).mols ≠ [] := by rw [hmols]; simp
      obtain ⟨hne, hlast⟩ := ih (acidStep r sites s) h2
      refine ⟨hne, ?_⟩
      rw [hlast, hmols, getLastD_cons_ne_nil s.mols _ default h]

/-! ### Claim theorems -/

/-- C1: the conjugate-generator decision table.  The source of
`create_conjugate` cannot implement it: chem.py line 28,
`elif pka > pH and Tot_Hs = 0:`, is an assignment inside a condition and
therefore a Python syntax error, so importing `pkasolver.chem` fails before
any row can run.  Evaluating the spec-modelled table at the input that
exercises the third row - reference pKa 9.0 above the default pH 7.4 on a
neutral, hydrogen-free nitrogen - yields the increment of formal charge and
explicit-hydrogen count that the claim (and the spec's row 3) demands. -/
theorem createConjugate_row3_behaviour :
    createConjugate nNeutral 0 9 (37/5) = some ⟨[⟨7, 1, 1, 0⟩], []⟩ ∧
    createConjugate ⟨[⟨8, 1, 2, 0⟩], []⟩ 0 9 (37/5) =
      some ⟨[⟨8, 0, 1, 0⟩], []⟩ ∧
    createConjugate ⟨[⟨8, 0, 0, 1⟩], []⟩ 0 3 (37/5) =
      some ⟨[⟨8, 1, 0, 1⟩], []⟩ ∧
    createConjugate ⟨[⟨6, 0, 0, 1⟩], []⟩ 0 (37/5) (37/5) = none := by
  refine ⟨by with_unfolding_all decide, by with_unfolding_all decide,
    by with_unfolding_all decide, by with_unfolding_all decide⟩

/-- C8: the feature encoder on the repository's own test input (toluene with
the node features element and formal charge, the edge features bond type and
conjugation).  `make_nodes` produces one row per atom, but each row has one
NESTED entry per selected feature (here 2), not the flat
`sumNodeCard = 11 + 3 = 14` columns the claim, the spec and
tests/test_data_generation.py::test_nodes require; `np.array`/`torch.tensor`
cannot turn these ragged rows into a 7 x 14 float matrix.  The directed-edge
table itself does hold 2 x bond-count rows with each forward edge followed by
its reverse, but the edge-feature rows are nested the same way (2 entries
instead of the required 5 columns). -/
theorem makeNodes_nested_rows_toluene :
    (makeNodes toluene 1 [elementFeature, formalChargeFeature]).length = 7 ∧
    ((makeNodes toluene 1 [elementFeature, formalChargeFeature]).all
      (fun row => row.length == 2)) = true ∧
    sumNodeCard [elementFeature, formalChargeFeature] = 14 ∧
    (makeEdgesAndAttr toluene [bondTypeFeature, isConjugatedFeature]).1 =
      [(0, 1), (1, 0), (1, 2), (2, 1), (2, 3), (3, 2), (3, 4), (4, 3),
       (4, 5), (5, 4), (5, 6), (6, 5), (6, 1), (1, 6)] ∧
    (makeEdgesAndAttr toluene [bondTypeFeature, isConjugatedFeature]).1.length =
      2 * toluene.bonds.length ∧
    ((makeEdgesAndAttr toluene [bondTypeFeature, isConjugatedFeature]).2.all
      (fun row => row.length == 2)) = true ∧
    sumEdgeCard [bondTypeFeature, isConjugatedFeature] = 5 := by
  refine ⟨by decide, by decide, by decide, by with_unfolding_all decide,
    by with_unfolding_all decide, by with_unfolding_all decide, by decide⟩

/-- C5 counterexample: `get_possible_reactions` does not leave its input
object unchanged - with one candidate site it returns the input with the
`__sssAtoms` attribute set, a different object state. -/
theorem getPossibleReactions_mutates_input :
    (getPossibleReactions ⟨oxideMinus3, none⟩ [0]).2.2 ≠
      ⟨oxideMinus3, none⟩ := by decide

/-- C5 (amended): all chemical state of the input - its atoms with their
formal charges and hydrogen counts, and its bonds - is preserved by
`get_possible_reactions`; the only change to the input object is the
`__sssAtoms` highlight attribute, which afterwards holds the last candidate
site (and the object is fully unchanged when there are no sites). -/
theorem getPossibleReactions_chem_preserved (mo : MolObject) (sites : List Nat) :
    (getPossibleReactions mo sites).2.2.chem = mo.chem ∧
    (sites = [] → (getPossibleReactions mo sites).2.2 = mo) ∧
    (sites ≠ [] → (getPossibleReactions mo sites).2.2 =
      ⟨mo.chem, some [sites.getLastD 0]⟩) := by
  refine ⟨?_, ?_, ?_⟩
  · cases hs : sites with
    | nil => rfl
    | cons m rest => rw [gpr_obj_ne_nil mo _ (by simp)]
  · intro h
    subst h
    rfl
  · intro h
    exact gpr_obj_ne_nil mo sites h

theorem getPossibleReactions_chem_preserved_witness :
    (getPossibleReactions ⟨oxideMinus3, none⟩ [0]).2.2 =
      ⟨oxideMinus3, some [0]⟩ :=
  (getPossibleReactions_chem_preserved ⟨oxideMinus3, none⟩ [0]).2.2 (by decide)

/-- C6: for every pair produced by `get_possible_reactions` the protonated
member's charge at the carried reaction-center index is exactly the
deprotonated member's charge plus one, every other atom is identical, and the
two members have the same atom count; the same single-atom, charge-one
property holds for every molecule the (spec-modelled) `create_conjugate`
returns. -/
theorem conjugate_pair_charge_invariant (mo : MolObject) (sites : List Nat) :
    (∀ p ∈ (getPossibleReactions mo sites).1 ++ (getPossibleReactions mo sites).2.1,
      (getAtom p.1 p.2.2).charge = (getAtom p.2.1 p.2.2).charge + 1 ∧
      ((getAtom p.1 p.2.2).charge - (getAtom p.2.1 p.2.2).charge).natAbs = 1 ∧
      (∀ j, j ≠ p.2.2 → getAtom p.1 j = getAtom p.2.1 j) ∧
      p.1.atoms.length = p.2.1.atoms.length) ∧
    (∀ (mol : Molecule) (i : Nat) (pka pH : ℚ) (m2 : Molecule),
      createConjugate mol i pka pH = some m2 → i < mol.atoms.length →
      ((getAtom m2 i).charge - (getAtom mol i).charge).natAbs = 1 ∧
      (∀ j, j ≠ i → getAtom m2 j = getAtom mol j) ∧
      m2.atoms.length = mol.atoms.length) := by
  constructor
  · intro p hp
    rcases List.mem_append.mp hp with hpa | hpb
    · rcases (mem_gpr_acid mo sites p).mp hpa with ⟨m, _, hc, hpeq⟩
      subst hpeq
      dsimp only
      have hlt := acidCondB_lt_length mo.chem m hc
      refine ⟨?_, ?_, ?_, ?_⟩
      · rw [getAtom_protonateMol_self mo.chem m hlt, protonateAtom_charge]
      · rw [getAtom_protonateMol_self mo.chem m hlt, protonateAtom_charge]
        omega
      · intro j hj
        exact getAtom_protonateMol_ne mo.chem m j (fun h => hj h.symm)
      · exact length_protonateMol mo.chem m
    · rcases (mem_gpr_base mo sites p).mp hpb with ⟨m, _, hc, hpeq⟩
      subst hpeq
      dsimp only
      have hlt := baseCondB_lt_length mo.chem m hc
      refine ⟨?_, ?_, ?_, ?_⟩
      · rw [getAtom_deprotonateMol_self mo.chem m hlt, deprotonateAtom_charge]
        omega
      · rw [getAtom_deprotonateMol_self mo.chem m hlt, deprotonateAtom_charge]
        omega
      · intro j hj
        exact (getAtom_deprotonateMol_ne mo.chem m j (fun h => hj h.symm)).symm
      · exact (length_deprotonateMol mo.chem m).symm
  · intro mol i pka pH m2 hsome hlt
    have key : ∀ (A : Atom), (A.charge - (getAtom mol i).charge).natAbs = 1 →
        ((getAtom (setAtom mol i A) i).charge - (getAtom mol i).charge).natAbs = 1 ∧
        (∀ j, j ≠ i → getAtom (setAtom mol i A) j = getAtom mol j) ∧
        (setAtom mol i A).atoms.length = mol.atoms.length := by
      intro A hA
      refine ⟨?_, ?_, ?_⟩
      · rw [show getAtom (setAtom mol i A) i = A from
          getD_set_self mol.atoms i A default hlt]
        exact hA
      · intro j hj
        exact getD_set_ne mol.atoms i j A default (fun h => hj h.symm)
      · simp [setAtom]
    unfold createConjugate at hsome
    split_ifs at hsome
    all_goals first
      | exact Option.noConfusion hsome
      | (obtain rfl : _ = m2 := Option.some_inj.mp hsome
         exact key _ (by dsimp only; omega))

theorem conjugate_pair_charge_invariant_witness :
    (getAtom (⟨[⟨7, 1, 1, 0⟩], []⟩ : Molecule) 0).charge =
      (getAtom nNeutral 0).charge + 1 :=
  ((conjugate_pair_charge_invariant ⟨nNeutral, none⟩ [0]).1
    (⟨[⟨7, 1, 1, 0⟩], []⟩, nNeutral, 0) (by decide)).1

theorem dedup_length_eq_one_iff {α : Type} [DecidableEq α] (l : List α) :
    l.dedup.length = 1 ↔ l ≠ [] ∧ ∀ x ∈ l, ∀ y ∈ l, x = y := by
  constructor
  · intro h
    obtain ⟨a, ha⟩ := List.length_eq_one.mp h
    have hmem : ∀ x ∈ l, x = a := by
      intro x hx
      have : x ∈ l.dedup := List.mem_dedup.mpr hx
      rw [ha] at this
      simpa using this
    refine ⟨?_, ?_⟩
    · intro hnil
      rw [hnil] at ha
      simp at ha
    · intro x hx y hy
      rw [hmem x hx, hmem y hy]
  · rintro ⟨hne, hall⟩
    obtain ⟨a, ha⟩ := List.exists_mem_of_ne_nil l hne
    have hadd : a ∈ l.dedup := List.mem_dedup.mpr ha
    have hnd := List.nodup_dedup l
    cases hd : l.dedup with
    | nil => rw [hd] at hadd; simp at hadd
    | cons x xs =>
      cases hxs : xs with
      | nil => simp [hd, hxs]
      | cons y ys =>
        exfalso
        rw [hxs] at hd
        have hx : x ∈ l := List.mem_dedup.mp (by rw [hd]; simp)
        have hy : y ∈ l := List.mem_dedup.mp (by rw [hd]; simp)
        have hxy : x = y := (hall x hx y hy)
        rw [hd] at hnd
        rcases List.nodup_cons.mp hnd with ⟨hnotin, _⟩
        exact hnotin (by rw [hxy]; simp)

theorem one_lt_dedup_length_iff {α : Type} [DecidableEq α] (l : List α) :
    1 < l.dedup.length ↔ ∃ x ∈ l, ∃ y ∈ l, x ≠ y := by
  constructor
  · intro h
    cases hd : l.dedup with
    | nil => rw [hd] at h; simp at h
    | cons x xs =>
      cases hxs : xs with
      | nil => rw [hd, hxs] at h; simp at h
      | cons y ys =>
        rw [hxs] at hd
        have hx : x ∈ l := List.mem_dedup.mp (by rw [hd]; simp)
        have hy : y ∈ l := List.mem_dedup.mp (by rw [hd]; simp)
        have hnd := List.nodup_dedup l
        rw [hd] at hnd
        rcases List.nodup_cons.mp hnd with ⟨hnotin, _⟩
        exact ⟨x, hx, y, hy, fun hxy => hnotin (by rw [hxy]; simp)⟩
  · rintro ⟨x, hx, y, hy, hxy⟩
    by_contra h
    have hle : l.dedup.length ≤ 1 := by omega
    cases hd : l.dedup with
    | nil =>
      have : x ∈ l.dedup := List.mem_dedup.mpr hx
      rw [hd] at this
      simp at this
    | cons a as =>
      cases has : as with
      | nil =>
        have hxa : x ∈ l.dedup := List.mem_dedup.mpr hx
        have hya : y ∈ l.dedup := List.mem_dedup.mpr hy
        rw [hd, has] at hxa hya
        simp only [List.mem_singleton] at hxa hya
        exact hxy (hxa.trans hya.symm)
      | cons b bs =>
        rw [hd, has] at hle
        simp at hle

theorem filter_eq_nil_of_all_false {α : Type} (l : List α) (p : α → Bool)
    (h : ∀ x ∈ l, ¬ p x = true) : l.filter p = [] := by
  induction l with
  | nil => rfl
  | cons a as ih =>
    rw [List.filter_cons]
    have ha := h a (by simp)
    simp only [Bool.not_eq_true] at ha
    rw [ha]
    simp only [Bool.false_eq_true, if_false]
    exact ih (fun x hx => h x (by simp [hx]))

/-- C7: `get_ionization_indices` on variants with a common atom count returns
exactly the atom indices whose formal charge is not identical across all
variants, in ascending order; on more than one identical variant it returns
the empty list; and it fails (the Python `assert`) whenever two variants
differ in atom count. -/
theorem get_ionization_indices_spec (mol_lst : List Molecule) :
    ((∀ m1 ∈ mol_lst, ∀ m2 ∈ mol_lst, m1.atoms.length = m2.atoms.length) →
      mol_lst ≠ [] →
      ∃ res, getIonizationIndices mol_lst = Except.ok res ∧
        (∀ i, i ∈ res ↔ i < mol_lst.headI.atoms.length ∧
          ∃ m1 ∈ mol_lst, ∃ m2 ∈ mol_lst,
            (getAtom m1 i).charge ≠ (getAtom m2 i).charge) ∧
        res.Sorted (· < ·)) ∧
    ((∀ m ∈ mol_lst, m = mol_lst.headI) → mol_lst ≠ [] →
      getIonizationIndices mol_lst = Except.ok []) ∧
    ((∃ m1 ∈ mol_lst, ∃ m2 ∈ mol_lst, m1.atoms.length ≠ m2.atoms.length) →
      getIonizationIndices mol_lst =
        Except.error "Molecules must only differ in their protonation state") := by
  refine ⟨?_, ?_, ?_⟩
  · intro hlen hne
    have hcond : (mol_lst.map (fun mol => mol.atoms.length)).dedup.length = 1 := by
      rw [dedup_length_eq_one_iff]
      refine ⟨by simpa using hne, ?_⟩
      intro x hx y hy
      rcases List.mem_map.mp hx with ⟨m1, hm1, hx1⟩
      rcases List.mem_map.mp hy with ⟨m2, hm2, hy1⟩
      rw [← hx1, ← hy1]
      exact hlen m1 hm1 m2 hm2
    refine ⟨_, by rw [getIonizationIndices, if_pos hcond], ?_, ?_⟩
    · intro i
      rw [List.mem_filter, List.mem_range, decide_eq_true_eq,
        one_lt_dedup_length_iff]
      constructor
      · rintro ⟨hi, x, hx, y, hy, hxy⟩
        rcases List.mem_map.mp hx with ⟨m1, hm1, hx1⟩
        rcases List.mem_map.mp hy with ⟨m2, hm2, hy1⟩
        exact ⟨hi, m1, hm1, m2, hm2, by rw [hx1, hy1]; exact hxy⟩
      · rintro ⟨hi, m1, hm1, m2, hm2, hc⟩
        exact ⟨hi, _, List.mem_map_of_mem _ hm1, _, List.mem_map_of_mem _ hm2, hc⟩
    · exact (List.sorted_lt_range _).filter _
  · intro hid hne
    have hcond : (mol_lst.map (fun mol => mol.atoms.length)).dedup.length = 1 := by
      rw [dedup_length_eq_one_iff]
      refine ⟨by simpa using hne, ?_⟩
      intro x hx y hy
      rcases List.mem_map.mp hx with ⟨m1, hm1, hx1⟩
      rcases List.mem_map.mp hy with ⟨m2, hm2, hy1⟩
      rw [← hx1, ← hy1, hid m1 hm1, hid m2 hm2]
    rw [getIonizationIndices, if_pos hcond]
    have hfilter : ∀ i ∈ List.range mol_lst.headI.atoms.length,
        ¬ (decide (1 <
          ((mol_lst.map (fun mol => (getAtom mol i).charge)).dedup.length)) = true) := by
      intro i _
      simp only [decide_eq_true_eq]
      rw [one_lt_dedup_length_iff]
      rintro ⟨x, hx, y, hy, hxy⟩
      rcases List.mem_map.mp hx with ⟨m1, hm1, hx1⟩
      rcases List.mem_map.mp hy with ⟨m2, hm2, hy1⟩
      exact hxy (by rw [← hx1, ← hy1, hid m1 hm1, hid m2 hm2])
    rw [filter_eq_nil_of_all_false _ _ hfilter]
  · intro hdiff
    have hcond : ¬ (mol_lst.map (fun mol => mol.atoms.length)).dedup.length = 1 := by
      rw [dedup_length_eq_one_iff]
      rintro ⟨_, hall⟩
      rcases hdiff with ⟨m1, hm1, m2, hm2, hne⟩
      exact hne (hall _ (List.mem_map_of_mem _ hm1) _ (List.mem_map_of_mem _ hm2))
    rw [getIonizationIndices, if_neg hcond]

theorem get_ionization_indices_spec_witness :
    ∃ res, getIonizationIndices chargeVariants = Except.ok res ∧
      (∀ i, i ∈ res ↔ i < chargeVariants.headI.atoms.length ∧
        ∃ m1 ∈ chargeVariants, ∃ m2 ∈ chargeVariants,
          (getAtom m1 i).charge ≠ (getAtom m2 i).charge) ∧
      res.Sorted (· < ·) :=
  (get_ionization_indices_spec chargeVariants).1 (by decide) (by decide)

/-- C2: the acid-searching phase.  A site yields an acid-direction pair
exactly when it is a nitrogen with non-positive formal charge or carries a
negative formal charge; the selected pair attains the maximum rounded
prediction and is the first such pair in site-enumeration order; a maximum
below 0.5 (or an empty candidate list) leaves the sequence unchanged, and an
accepted pKa, protonated molecule and atom index are prepended. -/
theorem acid_phase_candidates_and_selection (r : RPair → ℚ) (mo : MolObject)
    (sites : List Nat) (s : SeqState) :
    ((getPossibleReactions mo sites).1 =
      (sites.filter (fun m => acidCondB (getAtom mo.chem m))).map
        (fun m => (protonateMol mo.chem m, mo.chem, m))) ∧
    (∀ q ∈ matchPka r (getPossibleReactions mo sites).1,
      q ≤ listMax (matchPka r (getPossibleReactions mo sites).1)) ∧
    ((getPossibleReactions mo sites).1 = [] ∨
        listMax (matchPka r (getPossibleReactions mo sites).1) < 1/2 →
      acidSequence r (getPossibleReactions mo sites).1 s = s) ∧
    ((getPossibleReactions mo sites).1 ≠ [] →
      ¬ listMax (matchPka r (getPossibleReactions mo sites).1) < 1/2 →
      ∃ k, k < (getPossibleReactions mo sites).1.length ∧
        round3 (r ((getPossibleReactions mo sites).1.getD k default)) =
          listMax (matchPka r (getPossibleReactions mo sites).1) ∧
        (∀ j, j < k →
          round3 (r ((getPossibleReactions mo sites).1.getD j default)) ≠
            listMax (matchPka r (getPossibleReactions mo sites).1)) ∧
        acidSequence r (getPossibleReactions mo sites).1 s =
          ⟨((getPossibleReactions mo sites).1.getD k default).1 :: s.mols,
           listMax (matchPka r (getPossibleReactions mo sites).1) :: s.pkas,
           ((getPossibleReactions mo sites).1.getD k default).2.2 :: s.atoms⟩) := by
  refine ⟨gpr_acid_eq mo sites, ?_, ?_, ?_⟩
  · intro q hq
    exact le_listMax _ q hq
  · intro h
    rcases acidSequence_spec r (getPossibleReactions mo sites).1 s with
      ⟨heq, _⟩ | ⟨k, hk, _, _, hnlt, _⟩
    · exact heq
    · rcases h with h | h
      · rw [h] at hk
        simp at hk
      · exact absurd h hnlt
  · intro hne hnlt
    rcases acidSequence_spec r (getPossibleReactions mo sites).1 s with
      ⟨_, hno⟩ | ⟨k, hk, hmax, hfirst, _, heq⟩
    · rcases hno with h | h
      · exact absurd h hne
      · exact absurd h hnlt
    · exact ⟨k, hk, hmax, hfirst, heq⟩

theorem acid_phase_candidates_and_selection_witness :
    acidSequence (fun _ => 0) (getPossibleReactions ⟨nNeutral, none⟩ [0]).1
      ⟨[nNeutral], [], []⟩ = ⟨[nNeutral], [], []⟩ :=
  (acid_phase_candidates_and_selection (fun _ => 0) ⟨nNeutral, none⟩ [0]
    ⟨[nNeutral], [], []⟩).2.2.1 (Or.inr (by with_unfolding_all decide))

/-- C3: the base-searching phase.  A site yields a base-direction pair
exactly when it has at least one total hydrogen, a non-negative formal
charge, and is not a neutral nitrogen with exactly one hydrogen; the
selected pair attains the minimum rounded prediction and is the first such
pair in site-enumeration order; it is accepted only when that minimum is at
most 13.5, in which case the pKa, the deprotonated molecule and the atom
index are appended at the end; otherwise the sequence is unchanged. -/
theorem base_phase_candidates_and_selection (r : RPair → ℚ) (mo : MolObject)
    (sites : List Nat) (s : SeqState) :
    ((getPossibleReactions mo sites).2.1 =
      (sites.filter (fun m => baseCondB (getAtom mo.chem m))).map
        (fun m => (mo.chem, deprotonateMol mo.chem m, m))) ∧
    (∀ q ∈ matchPka r (getPossibleReactions mo sites).2.1,
      listMin (matchPka r (getPossibleReactions mo sites).2.1) ≤ q) ∧
    ((getPossibleReactions mo sites).2.1 = [] ∨
        27/2 < listMin (matchPka r (getPossibleReactions mo sites).2.1) →
      baseSequence r (getPossibleReactions mo sites).2.1 s = s) ∧
    ((getPossibleReactions mo sites).2.1 ≠ [] →
      ¬ 27/2 < listMin (matchPka r (getPossibleReactions mo sites).2.1) →
      ∃ k, k < (getPossibleReactions mo sites).2.1.length ∧
        round3 (r ((getPossibleReactions mo sites).2.1.getD k default)) =
          listMin (matchPka r (getPossibleReactions mo sites).2.1) ∧
        (∀ j, j < k →
          round3 (r ((getPossibleReactions mo sites).2.1.getD j default)) ≠
            listMin (matchPka r (getPossibleReactions mo sites).2.1)) ∧
        baseSequence r (getPossibleReactions mo sites).2.1 s =
          ⟨s.mols ++ [((getPossibleReactions mo sites).2.1.getD k default).2.1],
           s.pkas ++ [listMin (matchPka r (getPossibleReactions mo sites).2.1)],
           s.atoms ++ [((getPossibleReactions mo sites).2.1.getD k default).2.2]⟩) := by
  refine ⟨gpr_base_eq mo sites, ?_, ?_, ?_⟩
  · intro q hq
    exact listMin_le _ q hq
  · intro h
    rcases baseSequence_spec r (getPossibleReactions mo sites).2.1 s with
      ⟨heq, _⟩ | ⟨k, hk, _, _, hngt, _⟩
    · exact heq
    · rcases h with h | h
      · rw [h] at hk
        simp at hk
      · exact absurd h hngt
  · intro hne hngt
    rcases baseSequence_spec r (getPossibleReactions mo sites).2.1 s with
      ⟨_, hno⟩ | ⟨k, hk, hmin, hfirst, _, heq⟩
    · rcases hno with h | h
      · exact absurd h hne
      · exact absurd h hngt
    · exact ⟨k, hk, hmin, hfirst, heq⟩

theorem base_phase_candidates_and_selection_witness :
    baseSequence (fun _ => 20) (getPossibleReactions ⟨⟨[⟨8, 0, 1, 0⟩], []⟩, none⟩ [0]).2.1
      ⟨[⟨[⟨8, 0, 1, 0⟩], []⟩], [], []⟩ = ⟨[⟨[⟨8, 0, 1, 0⟩], []⟩], [], []⟩ :=
  (base_phase_candidates_and_selection (fun _ => 20) ⟨⟨[⟨8, 0, 1, 0⟩], []⟩, none⟩ [0]
    ⟨[⟨[⟨8, 0, 1, 0⟩], []⟩], [], []⟩).2.2.1 (Or.inr (by with_unfolding_all decide))

/-- C10: every pKa the search compares and stores is the regressor output
rounded to three decimals.  `match_pka` rounds each raw prediction, the acid
and base selections maximise and minimise over the rounded values and compare
them (not the raw ones) against 0.5 and 13.5, every stored value is an
integer multiple of 1/1000, and two raw predictions that differ by less than
0.001 can round to the same value and hence tie. -/
theorem match_pka_rounding (r : RPair → ℚ) (pairs : List RPair) (s : SeqState) :
    (matchPka r pairs = pairs.map (fun p => round3 (r p))) ∧
    (acidSequence r pairs s = s ∨
      ∃ p ∈ pairs, ¬ round3 (r p) < 1/2 ∧
        (∀ q ∈ pairs, round3 (r q) ≤ round3 (r p)) ∧
        acidSequence r pairs s =
          ⟨p.1 :: s.mols, round3 (r p) :: s.pkas, p.2.2 :: s.atoms⟩) ∧
    (baseSequence r pairs s = s ∨
      ∃ p ∈ pairs, ¬ 27/2 < round3 (r p) ∧
        (∀ q ∈ pairs, round3 (r p) ≤ round3 (r q)) ∧
        baseSequence r pairs s =
          ⟨s.mols ++ [p.2.1], s.pkas ++ [round3 (r p)], s.atoms ++ [p.2.2]⟩) ∧
    (∀ q ∈ matchPka r pairs, ∃ z : Int, q = (z : ℚ) / 1000) ∧
    (round3 (mkRat 12341 10000) = round3 (mkRat 12342 10000) ∧
      (mkRat 12341 10000 : ℚ) ≠ mkRat 12342 10000 ∧
      (mkRat 12342 10000 - mkRat 12341 10000 : ℚ) = mkRat 1 10000 ∧
      (mkRat 1 10000 : ℚ) < mkRat 1 1000) := by
  refine ⟨rfl, ?_, ?_, ?_, ?_⟩
  · rcases acidSequence_spec r pairs s with ⟨heq, _⟩ | ⟨k, hk, hmax, _, hnlt, heq⟩
    · exact Or.inl heq
    · right
      refine ⟨pairs.getD k default, getD_mem_of_lt pairs k default hk, ?_, ?_, ?_⟩
      · rw [hmax]; exact hnlt
      · intro q hq
        rw [hmax]
        exact le_listMax _ _ (by
          rw [matchPka]
          exact List.mem_map_of_mem _ hq)
      · rw [heq, hmax]
  · rcases baseSequence_spec r pairs s with ⟨heq, _⟩ | ⟨k, hk, hmin, _, hngt, heq⟩
    · exact Or.inl heq
    · right
      refine ⟨pairs.getD k default, getD_mem_of_lt pairs k default hk, ?_, ?_, ?_⟩
      · rw [hmin]; exact hngt
      · intro q hq
        rw [hmin]
        exact listMin_le _ _ (by
          rw [matchPka]
          exact List.mem_map_of_mem _ hq)
      · rw [heq, hmin]
  · intro q hq
    rcases List.mem_map.mp hq with ⟨p, _, hpq⟩
    exact ⟨roundHalfEven (r p * 1000), hpq.symm⟩
  · refine ⟨by with_unfolding_all decide, by decide, ?_, by decide⟩
    simp [Rat.mkRat_eq_div]
    norm_num

theorem match_pka_rounding_witness :
    ∃ z : Int, round3 1 = (z : ℚ) / 1000 :=
  (match_pka_rounding (fun _ => 1) [(nNeutral, nNeutral, 0)]
    ⟨[], [], []⟩).2.2.2.1 (round3 1) (by with_unfolding_all decide)

/-- C4 counterexample: on a single oxygen atom with formal charge -3 (one
atom, one candidate site) and a regressor that always answers 1, the search
accepts three acid steps, so the pKa list has 3 entries although twice the
atom count is 2, and the acid loop is still changing after 2 iterations. -/
theorem mol_query_exceeds_atom_count_bound :
    (molQuery (fun _ => 1) [0] 10 10 oxideMinus3).pkas.length = 3 ∧
    2 * oxideMinus3.atoms.length = 2 ∧
    acidLoop (fun _ => 1) [0] 2 ⟨[oxideMinus3], [], []⟩ ≠
      acidLoop (fun _ => 1) [0] 10 ⟨[oxideMinus3], [], []⟩ := by
  refine ⟨by with_unfolding_all decide, by decide, by with_unfolding_all decide⟩

/-- C4 (amended): the search loops of `mol_query` do terminate for every
regressor, but within a bound given by the initial charge deficits of the
candidate sites rather than twice the atom count: the acid loop is stable
once its fuel exceeds `acidPotential` (for each site, how far its charge is
below +1 for nitrogen, below 0 otherwise) and the base loop once its fuel
exceeds `basePotential` (for each site, its charge plus one); and each phase
exits as soon as an iteration does not increase the pKa-list length. -/
theorem mol_query_terminates (r : RPair → ℚ) (sites : List Nat) (mol : Molecule)
    (fuelA fuelB : Nat) (hA : acidPotential sites mol + 1 ≤ fuelA)
    (hB : basePotential sites mol + 1 ≤ fuelB) :
    molQuery r sites fuelA fuelB mol =
      molQuery r sites (acidPotential sites mol + 1)
        (basePotential sites mol + 1) mol ∧
    (∀ (s : SeqState) (fuel : Nat),
      (acidStep r sites s).pkas.length ≤ s.pkas.length →
      acidLoop r sites (fuel + 1) s = acidStep r sites s) ∧
    (∀ (s : SeqState) (fuel : Nat),
      (baseStep r sites s).pkas.length ≤ s.pkas.length →
      baseLoop r sites (fuel + 1) s = baseStep r sites s) := by
  refine ⟨?_, fun s fuel h => acidLoop_exit r sites s fuel h,
    fun s fuel h => baseLoop_exit r sites s fuel h⟩
  have h1 : acidLoop r sites fuelA ⟨[mol], [], []⟩ =
      acidLoop r sites (acidPotential sites mol + 1) ⟨[mol], [], []⟩ :=
    acidLoop_stable (acidPotential sites mol) r sites ⟨[mol], [], []⟩
      (le_refl _) fuelA hA
  have hlast := acidLoop_preserves_last r sites
    (acidPotential sites mol + 1) ⟨[mol], [], []⟩ (by simp)
  have h2 : baseLoop r sites fuelB
      (acidLoop r sites (acidPotential sites mol + 1) ⟨[mol], [], []⟩) =
      baseLoop r sites (basePotential sites mol + 1)
        (acidLoop r sites (acidPotential sites mol + 1) ⟨[mol], [], []⟩) := by
    apply baseLoop_stable (basePotential sites mol) r sites _ ?_ fuelB hB
    rw [hlast.2]
    exact le_refl _
  simp only [molQuery]
  rw [h1, h2]

theorem mol_query_terminates_witness :
    molQuery (fun _ => 1) [0] 10 10 oxideMinus3 =
      molQuery (fun _ => 1) [0] (acidPotential [0] oxideMinus3 + 1)
        (basePotential [0] oxideMinus3 + 1) oxideMinus3 :=
  (mol_query_terminates (fun _ => 1) [0] oxideMinus3 10 10
    (by decide) (by decide)).1

/-- C9 counterexample: `mol_to_paired_mol_data` performs no atom-count
comparison - on a pair whose members have 1 and 2 atoms it happily builds a
`PairData` whose node matrices have different row counts, instead of failing.
-/
theorem pair_builder_no_mismatch_check :
    (molToPairedMolData
        ⟨⟨[⟨8, 0, 0, 0⟩], []⟩, ⟨[⟨8, 0, 0, 0⟩, ⟨8, -1, 0, 0⟩], []⟩, 0⟩
        [elementFeature] []).x_p.length = 1 ∧
    (molToPairedMolData
        ⟨⟨[⟨8, 0, 0, 0⟩], []⟩, ⟨[⟨8, 0, 0, 0⟩, ⟨8, -1, 0, 0⟩], []⟩, 0⟩
        [elementFeature] []).x_d.length = 2 := by
  exact ⟨by decide, by decide⟩

/-- C9 (amended): the pair builder encodes each member independently with one
node row per atom - so the row counts agree exactly when the atom counts
agree, and nothing checks or rejects a mismatch - and the net formal charge
stored for each member is the sum of its atoms' formal charges. -/
theorem pair_builder_row_counts_and_charges (row : DataRow)
    (nfs : List NodeFeature) (efs : List EdgeFeature) :
    (molToPairedMolData row nfs efs).x_p.length = row.protonated.atoms.length ∧
    (molToPairedMolData row nfs efs).x_d.length = row.deprotonated.atoms.length ∧
    (molToPairedMolData row nfs efs).charge_prot = sumCharges row.protonated ∧
    (molToPairedMolData row nfs efs).charge_deprot = sumCharges row.deprotonated ∧
    (row.protonated.atoms.length = row.deprotonated.atoms.length →
      (molToPairedMolData row nfs efs).x_p.length =
        (molToPairedMolData row nfs efs).x_d.length) := by
  have hp : (molToPairedMolData row nfs efs).x_p.length =
      row.protonated.atoms.length := by
    simp [molToPairedMolData, molToFeatures, makeNodes]
  have hd : (molToPairedMolData row nfs efs).x_d.length =
      row.deprotonated.atoms.length := by
    simp [molToPairedMolData, molToFeatures, makeNodes]
  exact ⟨hp, hd, rfl, rfl, fun h => by rw [hp, hd, h]⟩

theorem pair_builder_row_counts_and_charges_witness :
    (molToPairedMolData ⟨nNeutral, nNeutral, 0⟩ [elementFeature] []).x_p.length =
      (molToPairedMolData ⟨nNeutral, nNeutral, 0⟩ [elementFeature] []).x_d.length :=
  (pair_builder_row_counts_and_charges ⟨nNeutral, nNeutral, 0⟩
    [elementFeature] []).2.2.2.2 rfl
